/-
Verification of the chanlun-pro backtesting core
(src/chanlun/backtesting/base.py and src/chanlun/backtesting/backtest.py).

Shallow embedding conventions:
* Python floats are modelled as exact rationals (ℚ); a float NaN produced by
  `talib.MA` is modelled as `none : Option ℚ`, with IEEE comparison semantics
  (every comparison against NaN is false).
* A Python function that can raise is modelled as `Except String _`;
  a value that can be `None` is modelled as `Option _`.
* Python true division is modelled by `pyDiv`, which is `none` exactly when the
  denominator is zero (a ZeroDivisionError / numpy inf, never a number).
* The substring test `'buy' in mmd` is modelled by `hasSub`.
-/
import Mathlib

/-- Python `a / b` (true division): undefined on a zero denominator. -/
def pyDiv (a b : ℚ) : Option ℚ := if b = 0 then none else some (a / b)

/-- Python substring test `pat in s`. -/
def hasSub (s pat : String) : Bool := decide (pat.toList <:+: s.toList)

/-- A raw K-line bar (the fields of the source `Kline` used here:
`index`, open `o`, close `c`). -/
structure Kline where
  index : ℤ
  o : ℚ := 0
  c : ℚ := 0
deriving DecidableEq

/-- A merged (chanlun) K-line: its own `index` and the raw bars it contains. -/
structure CLKline where
  index : ℤ
  klines : List Kline := []
deriving DecidableEq

/-- A fractal (`FX`): type `'ding'`/`'di'`, `done` flag, supporting merged
K-lines. `lowBand`/`highBand` model the values of the source accessors
`fx.low(fx_qj)` / `fx.high(fx_qj)`.
Modelled from the spec: the band accessors live in `chanlun/cl_interface.py`
(not under src/); the spec describes them only as the fractal's low/high-band
thresholds, so they are carried as data. -/
structure FX where
  type : String
  done : Bool
  klines : List CLKline := []
  lowBand : ℚ := 0
  highBand : ℚ := 0
deriving DecidableEq

/-- A stroke (`BI`): direction `type` (`'up'`/`'down'`), extreme prices
`high`/`low`, the result of `is_done()` as `done`, and its ending fractal
`fxEnd` (the source attribute `bi.end`; renamed because `end` is reserved). -/
structure BI where
  type : String
  high : ℚ := 0
  low : ℚ := 0
  done : Bool := true
  fxEnd : FX := { type := "", done := false }
deriving DecidableEq

/-- The chanlun data object `ICL` as used by the embedded functions:
`klines` models `cd.get_klines()`. -/
structure ICL where
  klines : List Kline := []
deriving DecidableEq

/-- The mutable position record (source dataclass `POSITION`). -/
structure POSITION where
  code : String := ""
  mmd : String
  type : Option String := none
  balance : ℚ := 0
  price : ℚ := 0
  amount : ℚ := 0
  loss_price : Option ℚ := none
  profit_rate : ℚ := 0
  max_profit_rate : ℚ := 0
  max_loss_rate : ℚ := 0
  open_msg : String := ""
  close_msg : String := ""
deriving DecidableEq

/-- A strategy instruction (source dataclass `Operation`; the free-form `info`
map is omitted, it is never read by the embedded code). -/
structure Operation where
  opt : String
  mmd : String
  loss_price : Option ℚ := none
  msg : String := ""
deriving DecidableEq

/-- The closed enumeration of signal types (`mmd`) used by the repository
(docstring of `Operation` and the `mmds` table in `BackTest.result`). -/
def strategy_mmds : List String :=
  ["1buy", "2buy", "l2buy", "3buy", "l3buy",
   "down_pz_bc_buy", "down_qs_bc_buy",
   "1sell", "2sell", "l2sell", "3sell", "l3sell",
   "up_pz_bc_sell", "up_qs_bc_sell"]

/-- `Strategy.last_done_bi`: the last stroke whose `is_done()` holds, scanning
`bis[::-1]`; `None` when there is none. -/
def last_done_bi (bis : List BI) : Option BI :=
  bis.reverse.find? (fun bi => bi.done)

/-- `Strategy.check_back_return`: give-back stop. Mirrors the source exactly:
when `max_back_rate` is set, the instantaneous profit rate is
`(pos.price - price) / pos.price * 100` when `'sell' in mmd`, otherwise
`(price - pos.price) / pos.price * 100`; a close Operation is returned iff the
profit rate is strictly positive and has retraced from `max_profit_rate` by at
least `max_back_rate`. Division by a zero entry price raises. -/
def check_back_return (mmd : String) (pos : POSITION) (price : ℚ)
    (max_back_rate : Option ℚ) : Except String (Option Operation) :=
  match max_back_rate with
  | none => .ok none
  | some rate =>
    match pyDiv (if hasSub mmd "sell" then pos.price - price else price - pos.price)
        pos.price with
    | none => .error "ZeroDivisionError"
    | some q =>
      let profit_rate := q * 100
      if 0 < profit_rate ∧ rate ≤ pos.max_profit_rate - profit_rate then
        .ok (some { opt := "sell", mmd := mmd, msg := "back return stop" })
      else
        .ok none

/-- `Strategy.dynamic_change_loss_by_bi`: ratchet the stop by the last
completed stroke. Mirrors the source's evaluation order: when no stop is set it
returns at once; otherwise `last_done_bi` is computed and, as soon as a branch
guard `'buy' in mmd` / `'sell' in mmd` is entered, `.type` is read from it —
an AttributeError when it is `None`. -/
def dynamic_change_loss_by_bi (pos : POSITION) (bis : List BI) :
    Except String POSITION :=
  match pos.loss_price with
  | none => .ok pos
  | some lp =>
    if hasSub pos.mmd "buy" then
      match last_done_bi bis with
      | none => .error "AttributeError"
      | some bi =>
        if bi.type = "up" then
          .ok { pos with loss_price := some (max lp bi.low) }
        else if hasSub pos.mmd "sell" then
          if bi.type = "down" then
            .ok { pos with loss_price := some (min lp bi.high) }
          else .ok pos
        else .ok pos
    else if hasSub pos.mmd "sell" then
      match last_done_bi bis with
      | none => .error "AttributeError"
      | some bi =>
        if bi.type = "down" then
          .ok { pos with loss_price := some (min lp bi.high) }
        else .ok pos
    else .ok pos

/-- The position as it stands after a call to `dynamic_change_loss_by_bi`:
the returned record on normal return, the unchanged input when the call raises
(the source mutates `loss_price` only on the non-raising paths). -/
def dclPost (pos : POSITION) (bis : List BI) : POSITION :=
  match dynamic_change_loss_by_bi pos bis with
  | .ok p => p
  | .error _ => pos

lemma strategy_mmds_buy_sell_disjoint {m : String} (hm : m ∈ strategy_mmds) :
    ¬(hasSub m "buy" = true ∧ hasSub m "sell" = true) := by
  fin_cases hm <;> decide

/-- C1: a single call to `dynamic_change_loss_by_bi` on a position with a set
stop never loosens it: for a `'buy'` signal the stop after the call is `≥` the
previous one, for a `'sell'` signal it is `≤`; and the stop changes only to the
last completed stroke's low (stroke upward, long) resp. high (stroke downward,
short). -/
theorem dynamic_change_loss_never_loosens (pos : POSITION) (bis : List BI)
    (lp : ℚ) (hm : pos.mmd ∈ strategy_mmds) (hlp : pos.loss_price = some lp) :
    ∃ lp', (dclPost pos bis).loss_price = some lp' ∧
      (hasSub pos.mmd "buy" = true →
        lp ≤ lp' ∧ (lp' ≠ lp → ∃ bi, last_done_bi bis = some bi ∧
          bi.type = "up" ∧ lp' = bi.low)) ∧
      (hasSub pos.mmd "sell" = true →
        lp' ≤ lp ∧ (lp' ≠ lp → ∃ bi, last_done_bi bis = some bi ∧
          bi.type = "down" ∧ lp' = bi.high)) := by
  have hdisj := strategy_mmds_buy_sell_disjoint hm
  by_cases hb : hasSub pos.mmd "buy" = true
  · have hs : ¬ hasSub pos.mmd "sell" = true := fun hs => hdisj ⟨hb, hs⟩
    cases hldb : last_done_bi bis with
    | none =>
      have hpost : dclPost pos bis = pos := by
        simp [dclPost, dynamic_change_loss_by_bi, hlp, hb, hldb]
      rw [hpost]
      exact ⟨lp, hlp, fun _ => ⟨le_refl _, fun hne => absurd rfl hne⟩,
        fun h => absurd h hs⟩
    | some bi =>
      by_cases htype : bi.type = "up"
      · have hpost : dclPost pos bis = { pos with loss_price := some (max lp bi.low) } := by
          simp [dclPost, dynamic_change_loss_by_bi, hlp, hb, hldb, htype]
        rw [hpost]
        refine ⟨max lp bi.low, rfl, fun _ => ⟨le_max_left _ _, ?_⟩,
          fun h => absurd h hs⟩
        intro hne
        rcases max_choice lp bi.low with hmx | hmx
        · exact absurd hmx hne
        · exact ⟨bi, rfl, htype, hmx⟩
      · have hpost : dclPost pos bis = pos := by
          simp [dclPost, dynamic_change_loss_by_bi, hlp, hb, hldb, htype, hs]
        rw [hpost]
        exact ⟨lp, hlp, fun _ => ⟨le_refl _, fun hne => absurd rfl hne⟩,
          fun h => absurd h hs⟩
  · by_cases hs : hasSub pos.mmd "sell" = true
    · cases hldb : last_done_bi bis with
      | none =>
        have hpost : dclPost pos bis = pos := by
          simp [dclPost, dynamic_change_loss_by_bi, hlp, hb, hs, hldb]
        rw [hpost]
        exact ⟨lp, hlp, fun h => absurd h hb,
          fun _ => ⟨le_refl _, fun hne => absurd rfl hne⟩⟩
      | some bi =>
        by_cases htype : bi.type = "down"
        · have hpost : dclPost pos bis = { pos with loss_price := some (min lp bi.high) } := by
            simp [dclPost, dynamic_change_loss_by_bi, hlp, hb, hs, hldb, htype]
          rw [hpost]
          refine ⟨min lp bi.high, rfl, fun h => absurd h hb,
            fun _ => ⟨min_le_left _ _, ?_⟩⟩
          intro hne
          rcases min_choice lp bi.high with hmn | hmn
          · exact absurd hmn hne
          · exact ⟨bi, rfl, htype, hmn⟩
        · have hpost : dclPost pos bis = pos := by
            simp [dclPost, dynamic_change_loss_by_bi, hlp, hb, hs, hldb, htype]
          rw [hpost]
          exact ⟨lp, hlp, fun h => absurd h hb,
            fun _ => ⟨le_refl _, fun hne => absurd rfl hne⟩⟩
    · have hpost : dclPost pos bis = pos := by
        simp [dclPost, dynamic_change_loss_by_bi, hlp, hb, hs]
      rw [hpost]
      exact ⟨lp, hlp, fun h => absurd h hb, fun h => absurd h hs⟩

/-- Concrete long position for the C1 witness: opened at 100, stop 95. -/
def c1posEx : POSITION := { mmd := "1buy", price := 100, loss_price := some 95 }

/-- Concrete stroke list for the C1 witness: one completed upward stroke with
low 97. -/
def c1bisEx : List BI := [{ type := "up", high := 103, low := 97 }]

/-- Witness for C1 at the spec's concrete scenario (stop 95, completed upward
stroke with low 97). -/
theorem dynamic_change_loss_never_loosens_witness :
    ∃ lp', (dclPost c1posEx c1bisEx).loss_price = some lp' ∧
      (hasSub c1posEx.mmd "buy" = true →
        95 ≤ lp' ∧ (lp' ≠ 95 → ∃ bi, last_done_bi c1bisEx = some bi ∧
          bi.type = "up" ∧ lp' = bi.low)) ∧
      (hasSub c1posEx.mmd "sell" = true →
        lp' ≤ 95 ∧ (lp' ≠ 95 → ∃ bi, last_done_bi c1bisEx = some bi ∧
          bi.type = "down" ∧ lp' = bi.high)) :=
  dynamic_change_loss_never_loosens c1posEx c1bisEx 95 (by decide) rfl

/-- Failing input for C2: a long position with a set stop and an empty stroke
list (no completed stroke). -/
def c2posEx : POSITION := { mmd := "1buy", price := 100, loss_price := some 95 }

/-- C2 fails on the code: with a stop set and no completed stroke,
`dynamic_change_loss_by_bi` raises (the source reads `.type` from the `None`
returned by `last_done_bi`) instead of being a no-op. -/
theorem dynamic_change_loss_raises_without_done_bi :
    dynamic_change_loss_by_bi c2posEx [] = .error "AttributeError" := rfl

/-- `Strategy.bi_qiang_td`: strong-pause confirmation of a stroke's ending
fractal. Mirrors the source line by line; the `[-1]` indexings raise on empty
lists, modelled by `.error`. -/
def bi_qiang_td (bi : BI) (cd : ICL) : Except String Bool :=
  if bi.fxEnd.done = false then .ok false
  else
    match cd.klines.getLast? with
    | none => .error "IndexError"
    | some last_k =>
      match bi.fxEnd.klines.getLast? with
      | none => .error "IndexError"
      | some fx_clk =>
        match fx_clk.klines.getLast? with
        | none => .error "IndexError"
        | some fx_k3 =>
          if last_k.index - fx_k3.index > 2 then .ok false
          else if fx_clk.index = last_k.index then .ok false
          else if bi.fxEnd.type = "ding" ∧ last_k.c < last_k.o ∧
              last_k.c < bi.fxEnd.lowBand then .ok true
          else if bi.fxEnd.type = "di" ∧ last_k.o < last_k.c ∧
              bi.fxEnd.highBand < last_k.c then .ok true
          else .ok false

/-- C4: `bi_qiang_td` is `True` exactly when the ending fractal is confirmed,
the latest bar is at most 2 bars past the fractal's last supporting bar and is
not that bar itself, and the latest bar is a reversal bar closing beyond the
fractal's band threshold (bearish below the low band for a peak, bullish above
the high band for a trough); otherwise it is `False`. -/
theorem bi_qiang_td_iff (bi : BI) (cd : ICL) (last_k : Kline)
    (fx_clk : CLKline) (fx_k3 : Kline)
    (h1 : cd.klines.getLast? = some last_k)
    (h2 : bi.fxEnd.klines.getLast? = some fx_clk)
    (h3 : fx_clk.klines.getLast? = some fx_k3) :
    (∃ b, bi_qiang_td bi cd = .ok b) ∧
    (bi_qiang_td bi cd = .ok true ↔
      (bi.fxEnd.done = true ∧ last_k.index - fx_k3.index ≤ 2 ∧
        fx_clk.index ≠ last_k.index ∧
        ((bi.fxEnd.type = "ding" ∧ last_k.c < last_k.o ∧
            last_k.c < bi.fxEnd.lowBand) ∨
         (bi.fxEnd.type = "di" ∧ last_k.o < last_k.c ∧
            bi.fxEnd.highBand < last_k.c)))) := by
  simp only [bi_qiang_td, h1, h2, h3]
  by_cases hdone : bi.fxEnd.done = false
  · rw [if_pos hdone]
    refine ⟨⟨false, rfl⟩, ?_⟩
    constructor
    · intro h
      exact absurd (Except.ok.inj h) (by simp)
    · rintro ⟨hd, -⟩
      rw [hd] at hdone
      exact absurd hdone (by simp)
  · rw [if_neg hdone]
    have hdone' : bi.fxEnd.done = true := by
      cases h : bi.fxEnd.done
      · exact absurd h hdone
      · rfl
    by_cases hfar : last_k.index - fx_k3.index > 2
    · rw [if_pos hfar]
      refine ⟨⟨false, rfl⟩, ?_⟩
      constructor
      · intro h
        exact absurd (Except.ok.inj h) (by simp)
      · rintro ⟨-, hle, -⟩
        exact absurd hfar (not_lt.mpr hle)
    · rw [if_neg hfar]
      by_cases hsame : fx_clk.index = last_k.index
      · rw [if_pos hsame]
        refine ⟨⟨false, rfl⟩, ?_⟩
        constructor
        · intro h
          exact absurd (Except.ok.inj h) (by simp)
        · rintro ⟨-, -, hne, -⟩
          exact absurd hsame hne
      · rw [if_neg hsame]
        by_cases hding : bi.fxEnd.type = "ding" ∧ last_k.c < last_k.o ∧
            last_k.c < bi.fxEnd.lowBand
        · rw [if_pos hding]
          exact ⟨⟨true, rfl⟩, by
            simp only [true_iff]
            exact ⟨hdone', not_lt.mp hfar, hsame, Or.inl hding⟩⟩
        · rw [if_neg hding]
          by_cases hdi : bi.fxEnd.type = "di" ∧ last_k.o < last_k.c ∧
              bi.fxEnd.highBand < last_k.c
          · rw [if_pos hdi]
            exact ⟨⟨true, rfl⟩, by
              simp only [true_iff]
              exact ⟨hdone', not_lt.mp hfar, hsame, Or.inr hdi⟩⟩
          · rw [if_neg hdi]
            refine ⟨⟨false, rfl⟩, ?_⟩
            constructor
            · intro h
              exact absurd (Except.ok.inj h) (by simp)
            · rintro ⟨-, -, -, hcase | hcase⟩
              · exact absurd hcase hding
              · exact absurd hcase hdi

/-- Concrete stroke for the C4 witness: a confirmed peak fractal whose last
supporting merged bar has index 9 containing the raw bar with index 9, low
band 101. -/
def c4biEx : BI :=
  { type := "up", high := 105, low := 95, done := true,
    fxEnd := { type := "ding", done := true,
               klines := [{ index := 9, klines := [{ index := 9, o := 104, c := 103 }] }],
               lowBand := 101, highBand := 104 } }

/-- Concrete chanlun data for the C4 witness: latest bar index 10, bearish,
closing at 100 below the low band 101. -/
def c4cdEx : ICL := { klines := [{ index := 10, o := 103, c := 100 }] }

/-- Witness for C4: the strong-pause test fires on a concrete confirmed peak
fractal with a fresh bearish latest bar closing below the low band. -/
theorem bi_qiang_td_iff_witness :
    bi_qiang_td c4biEx c4cdEx = .ok true ∧ (10 : ℤ) - 9 ≤ 2 := by
  have h := bi_qiang_td_iff c4biEx c4cdEx
    { index := 10, o := 103, c := 100 }
    { index := 9, klines := [{ index := 9, o := 104, c := 103 }] }
    { index := 9, o := 104, c := 103 } rfl rfl rfl
  exact ⟨h.2.mpr (by decide), by norm_num⟩

/-- C7: `check_back_return` returns a close Operation exactly when the
give-back threshold is set, the instantaneous profit rate (short formula for a
`'sell'` signal, long formula for a `'buy'` signal) is strictly positive and
the retracement from the recorded maximum reaches the threshold; in every other
case it returns `None`. -/
theorem check_back_return_iff (mmd : String) (pos : POSITION) (price : ℚ)
    (mbr : Option ℚ) (hp : pos.price ≠ 0) :
    (∃ res, check_back_return mmd pos price mbr = .ok res) ∧
    (mbr = none → check_back_return mmd pos price mbr = .ok none) ∧
    (hasSub mmd "sell" = true →
      ((∃ op, check_back_return mmd pos price mbr = .ok (some op)) ↔
        ∃ rate, mbr = some rate ∧
          0 < (pos.price - price) / pos.price * 100 ∧
          rate ≤ pos.max_profit_rate - (pos.price - price) / pos.price * 100)) ∧
    (hasSub mmd "sell" = false → hasSub mmd "buy" = true →
      ((∃ op, check_back_return mmd pos price mbr = .ok (some op)) ↔
        ∃ rate, mbr = some rate ∧
          0 < (price - pos.price) / pos.price * 100 ∧
          rate ≤ pos.max_profit_rate - (price - pos.price) / pos.price * 100)) := by
  cases mbr with
  | none =>
    refine ⟨⟨none, rfl⟩, fun _ => rfl, fun _ => ?_, fun _ _ => ?_⟩
    · constructor
      · rintro ⟨op, hop⟩
        exact absurd (Except.ok.inj hop) (by simp)
      · rintro ⟨rate, hrate, -⟩
        exact absurd hrate (by simp)
    · constructor
      · rintro ⟨op, hop⟩
        exact absurd (Except.ok.inj hop) (by simp)
      · rintro ⟨rate, hrate, -⟩
        exact absurd hrate (by simp)
  | some rate =>
    by_cases hsell : hasSub mmd "sell" = true
    · simp only [check_back_return, pyDiv, if_neg hp, if_pos hsell]
      by_cases hcond : 0 < (pos.price - price) / pos.price * 100 ∧
          rate ≤ pos.max_profit_rate - (pos.price - price) / pos.price * 100
      · rw [if_pos hcond]
        refine ⟨⟨_, rfl⟩, by simp, fun _ => ?_, fun hs _ => absurd hsell (by simp [hs])⟩
        exact ⟨fun _ => ⟨rate, rfl, hcond.1, hcond.2⟩, fun _ => ⟨_, rfl⟩⟩
      · rw [if_neg hcond]
        refine ⟨⟨none, rfl⟩, by simp, fun _ => ?_, fun hs _ => absurd hsell (by simp [hs])⟩
        constructor
        · rintro ⟨op, hop⟩
          exact absurd (Except.ok.inj hop) (by simp)
        · rintro ⟨rate', hrate', hpos, hret⟩
          rw [← Option.some.inj hrate'] at hret
          exact absurd ⟨hpos, hret⟩ hcond
    · simp only [check_back_return, pyDiv, if_neg hp, if_neg hsell]
      by_cases hcond : 0 < (price - pos.price) / pos.price * 100 ∧
          rate ≤ pos.max_profit_rate - (price - pos.price) / pos.price * 100
      · rw [if_pos hcond]
        refine ⟨⟨_, rfl⟩, by simp, fun hs => absurd hs hsell, fun _ _ => ?_⟩
        exact ⟨fun _ => ⟨rate, rfl, hcond.1, hcond.2⟩, fun _ => ⟨_, rfl⟩⟩
      · rw [if_neg hcond]
        refine ⟨⟨none, rfl⟩, by simp, fun hs => absurd hs hsell, fun _ _ => ?_⟩
        constructor
        · rintro ⟨op, hop⟩
          exact absurd (Except.ok.inj hop) (by simp)
        · rintro ⟨rate', hrate', hpos, hret⟩
          rw [← Option.some.inj hrate'] at hret
          exact absurd ⟨hpos, hret⟩ hcond

/-- Witness for C7: a long position at entry 100, current price 110 (profit
10%), recorded maximum 25%, give-back threshold 10 percentage points: a close
is returned. -/
theorem check_back_return_iff_witness :
    ∃ op, check_back_return "1buy"
      { mmd := "1buy", price := 100, max_profit_rate := 25 } 110 (some 10) =
        .ok (some op) := by
  have h := check_back_return_iff "1buy"
    { mmd := "1buy", price := 100, max_profit_rate := 25 } 110 (some 10)
    (by norm_num)
  exact (h.2.2.2 (by decide) (by decide)).mpr ⟨10, rfl, by norm_num, by norm_num⟩

/-- `BackTest.result` win rate: `0 if win_num == 0 and loss_num == 0 else
win_num / (win_num + loss_num) * 100`. -/
def shenglv_calc (win_num loss_num : ℕ) : Option ℚ :=
  if win_num = 0 ∧ loss_num = 0 then some 0
  else (pyDiv (win_num : ℚ) ((win_num : ℚ) + (loss_num : ℚ))).map (fun q => q * 100)

/-- `BackTest.result` give-back ratio: `0 if win_balance == 0 else
loss_balance / win_balance * 100`. -/
def back_rate_calc (win_balance loss_balance : ℚ) : Option ℚ :=
  if win_balance = 0 then some 0
  else (pyDiv loss_balance win_balance).map (fun q => q * 100)

/-- `BackTest.result` mean win: `0 if win_num == 0 else win_balance / win_num`. -/
def win_mean_balance_calc (win_num : ℕ) (win_balance : ℚ) : Option ℚ :=
  if win_num = 0 then some 0 else pyDiv win_balance (win_num : ℚ)

/-- `BackTest.result` mean loss: `0 if loss_num == 0 else
loss_balance / loss_num`. -/
def loss_mean_balance_calc (loss_num : ℕ) (loss_balance : ℚ) : Option ℚ :=
  if loss_num = 0 then some 0 else pyDiv loss_balance (loss_num : ℚ)

/-- `BackTest.result` profit/loss ratio: `0 if loss_mean_balance == 0 or
win_mean_balance == 0 else win_mean_balance / loss_mean_balance`. `none`
inputs propagate (an upstream exception). -/
def ykb_calc (win_mean loss_mean : Option ℚ) : Option ℚ :=
  match win_mean, loss_mean with
  | some w, some l => if l = 0 ∨ w = 0 then some 0 else pyDiv w l
  | _, _ => none

/-- `BackTest.result` Sharpe-like ratio: `if return_std: (daily_return -
daily_risk_free) / return_std * sqrt(annual_days) else 0`. The precomputed
real quantities `daily_risk_free = risk_free / sqrt(annual_days)` and
`sqrt(annual_days)` enter as values. -/
def sharpe_calc (daily_return return_std daily_risk_free sqrt_annual_days : ℚ) :
    Option ℚ :=
  if return_std = 0 then some 0
  else (pyDiv (daily_return - daily_risk_free) return_std).map
    (fun q => q * sqrt_annual_days)

/-- `BackTest.result` return/drawdown ratio:
`-total_return / max_ddpercent` — written with no guard in the source. -/
def return_drawdown_calc (total_return max_ddpercent : ℚ) : Option ℚ :=
  pyDiv (-total_return) max_ddpercent

/-- C3 counterexample: with a zero maximum-drawdown percentage the
return/drawdown ratio is an unguarded division by zero (numpy inf/NaN,
modelled `none`), not the claimed 0. -/
theorem return_drawdown_unguarded_cex :
    return_drawdown_calc 5 0 = none ∧ return_drawdown_calc 5 0 ≠ some 0 := by
  decide

/-- C3 (amended): win rate, give-back ratio, mean win, mean loss, profit/loss
ratio and the Sharpe-like ratio are all guarded and evaluate to 0 on a zero
denominator; the return/drawdown ratio alone is defined exactly when its
denominator is nonzero. -/
theorem result_ratios_guarded (win_num loss_num : ℕ)
    (win_balance loss_balance wm lm dr rs drf sq tr md : ℚ) :
    (shenglv_calc win_num loss_num).isSome = true ∧
    (win_num = 0 ∧ loss_num = 0 → shenglv_calc win_num loss_num = some 0) ∧
    (back_rate_calc win_balance loss_balance).isSome = true ∧
    (win_balance = 0 → back_rate_calc win_balance loss_balance = some 0) ∧
    (win_mean_balance_calc win_num win_balance).isSome = true ∧
    (win_num = 0 → win_mean_balance_calc win_num win_balance = some 0) ∧
    (loss_mean_balance_calc loss_num loss_balance).isSome = true ∧
    (loss_num = 0 → loss_mean_balance_calc loss_num loss_balance = some 0) ∧
    (ykb_calc (win_mean_balance_calc win_num win_balance)
      (loss_mean_balance_calc loss_num loss_balance)).isSome = true ∧
    (wm = 0 ∨ lm = 0 → ykb_calc (some wm) (some lm) = some 0) ∧
    (sharpe_calc dr rs drf sq).isSome = true ∧
    (rs = 0 → sharpe_calc dr rs drf sq = some 0) ∧
    ((return_drawdown_calc tr md).isSome = true ↔ md ≠ 0) := by
  have hwm : (win_mean_balance_calc win_num win_balance).isSome = true := by
    unfold win_mean_balance_calc pyDiv
    by_cases h : win_num = 0
    · rw [if_pos h]; rfl
    · rw [if_neg h, if_neg (Nat.cast_ne_zero.mpr h)]; rfl
  have hlm : (loss_mean_balance_calc loss_num loss_balance).isSome = true := by
    unfold loss_mean_balance_calc pyDiv
    by_cases h : loss_num = 0
    · rw [if_pos h]; rfl
    · rw [if_neg h, if_neg (Nat.cast_ne_zero.mpr h)]; rfl
  refine ⟨?_, ?_, ?_, ?_, hwm, ?_, hlm, ?_, ?_, ?_, ?_, ?_, ?_⟩
  · unfold shenglv_calc pyDiv
    by_cases h : win_num = 0 ∧ loss_num = 0
    · rw [if_pos h]; rfl
    · have hsum : ((win_num : ℚ) + (loss_num : ℚ)) ≠ 0 := by
        intro hq
        have : win_num + loss_num ≠ 0 := by omega
        exact this (by exact_mod_cast hq)
      rw [if_neg h, if_neg hsum]; rfl
  · rintro ⟨h1, h2⟩
    unfold shenglv_calc
    rw [if_pos ⟨h1, h2⟩]
  · unfold back_rate_calc pyDiv
    by_cases h : win_balance = 0
    · rw [if_pos h]; rfl
    · rw [if_neg h, if_neg h]; rfl
  · intro h
    unfold back_rate_calc
    rw [if_pos h]
  · intro h
    unfold win_mean_balance_calc
    rw [if_pos h]
  · intro h
    unfold loss_mean_balance_calc
    rw [if_pos h]
  · rcases Option.isSome_iff_exists.mp hwm with ⟨w, hw⟩
    rcases Option.isSome_iff_exists.mp hlm with ⟨l, hl⟩
    rw [hw, hl]
    simp only [ykb_calc, pyDiv]
    by_cases h : l = 0 ∨ w = 0
    · rw [if_pos h]; rfl
    · rw [if_neg h, if_neg (fun hz => h (Or.inl hz))]; rfl
  · intro h
    simp only [ykb_calc]
    rw [if_pos (Or.symm h)]
  · unfold sharpe_calc pyDiv
    by_cases h : rs = 0
    · rw [if_pos h]; rfl
    · rw [if_neg h, if_neg h]; rfl
  · intro h
    unfold sharpe_calc
    rw [if_pos h]
  · unfold return_drawdown_calc pyDiv
    by_cases h : md = 0
    · rw [if_pos h]
      simp [h]
    · rw [if_neg h]
      simp [h]

/-- Witness for the amended C3 at concrete inputs: zero-denominator cases give
0 for the guarded ratios, while the return/drawdown ratio at zero drawdown is
characterised by the (false) condition `0 ≠ 0`. -/
theorem result_ratios_guarded_witness :
    shenglv_calc 0 0 = some 0 ∧ back_rate_calc 0 7 = some 0 ∧
    ykb_calc (some 0) (some 3) = some 0 ∧ sharpe_calc 1 0 1 1 = some 0 ∧
    ((return_drawdown_calc 5 0).isSome = true ↔ (0 : ℚ) ≠ 0) := by
  have h := result_ratios_guarded 0 0 0 7 0 3 1 0 1 1 5 0
  exact ⟨h.2.1 ⟨rfl, rfl⟩, h.2.2.2.1 rfl, h.2.2.2.2.2.2.2.2.2.1 (Or.inl rfl),
    h.2.2.2.2.2.2.2.2.2.2.2.1 rfl, h.2.2.2.2.2.2.2.2.2.2.2.2⟩

/-- Modelled from the spec: the `BackTestTrader` constructor
(backtest_trader.py, not under src/) is plain object construction with no
validation; only its existence matters to the claims. -/
structure BackTestTrader where
  name : String
  mode : String
deriving DecidableEq

/-- Modelled from the spec: the `BackTestKlines` constructor
(backtest_klines.py, not under src/) is plain object construction with no
validation. -/
structure BackTestKlines where
  market : String
deriving DecidableEq

/-- The required configuration keys checked by `BackTest.__init__`. -/
def check_keys : List String :=
  ["mode", "market", "base_code", "codes", "frequencys",
   "start_datetime", "end_datetime",
   "init_balance", "fee_rate", "max_pos",
   "cl_config", "is_stock", "is_futures", "strategy"]

/-- Configuration dict lookup (values are opaque). -/
def configGet (cfg : List (String × String)) (k : String) : Option String :=
  (cfg.find? (fun p => decide (p.1 = k))).map Prod.snd

/-- Python `k in config.keys()`. -/
def hasKey (cfg : List (String × String)) (k : String) : Bool :=
  cfg.any (fun p => decide (p.1 = k))

/-- The `BackTest` object: `log` is always set; every other attribute exists
only when a configuration dict was supplied (Python sets no further attributes
when `config is None`). -/
structure BackTest where
  log : Bool
  mode : Option String := none
  market : Option String := none
  base_code : Option String := none
  codes : Option String := none
  frequencys : Option String := none
  start_datetime : Option String := none
  end_datetime : Option String := none
  init_balance : Option String := none
  fee_rate : Option String := none
  max_pos : Option String := none
  cl_config : Option String := none
  is_stock : Option String := none
  is_futures : Option String := none
  strategy : Option String := none
  save_file : Option String := none
  trader : Option BackTestTrader := none
  datas : Option BackTestKlines := none
  next_frequency : Option String := none
deriving DecidableEq

/-- `BackTest.__init__`: sets up the logger; returns at once when `config is
None`; otherwise raises on the first missing required key, then stores the
configuration and constructs the trader and the market-data provider. -/
def BackTest.init (config : Option (List (String × String))) :
    Except String BackTest :=
  match config with
  | none => .ok { log := true }
  | some cfg =>
    match check_keys.find? (fun k => !hasKey cfg k) with
    | some k => .error ("missing required config key: " ++ k)
    | none =>
      .ok { log := true
            mode := configGet cfg "mode"
            market := configGet cfg "market"
            base_code := configGet cfg "base_code"
            codes := configGet cfg "codes"
            frequencys := configGet cfg "frequencys"
            start_datetime := configGet cfg "start_datetime"
            end_datetime := configGet cfg "end_datetime"
            init_balance := configGet cfg "init_balance"
            fee_rate := configGet cfg "fee_rate"
            max_pos := configGet cfg "max_pos"
            cl_config := configGet cfg "cl_config"
            is_stock := configGet cfg "is_stock"
            is_futures := configGet cfg "is_futures"
            strategy := configGet cfg "strategy"
            save_file := configGet cfg "save_file"
            trader := some { name := "backtest",
                             mode := (configGet cfg "mode").getD "" }
            datas := some { market := (configGet cfg "market").getD "" } }

/-- C9: constructing a `BackTest` from a dict missing any required key raises
at construction; a dict with every required key constructs normally (with the
trader and the market-data provider in place). -/
theorem backtest_init_requires_keys (cfg : List (String × String)) :
    (∀ k, k ∈ check_keys → hasKey cfg k = false →
      ∃ e, BackTest.init (some cfg) = .error e) ∧
    ((∀ k, k ∈ check_keys → hasKey cfg k = true) →
      ∃ bt, BackTest.init (some cfg) = .ok bt ∧
        bt.trader.isSome = true ∧ bt.datas.isSome = true) := by
  constructor
  · intro k hk hmiss
    simp only [BackTest.init]
    cases hfind : check_keys.find? (fun k => !hasKey cfg k) with
    | some k' => exact ⟨_, rfl⟩
    | none =>
      exfalso
      have hnone := List.find?_eq_none.mp hfind k hk
      rw [hmiss] at hnone
      exact hnone rfl
  · intro hall
    simp only [BackTest.init]
    cases hfind : check_keys.find? (fun k => !hasKey cfg k) with
    | some k' =>
      exfalso
      have hm := List.find?_some hfind
      have hk' : k' ∈ check_keys := List.mem_of_find?_eq_some hfind
      rw [hall k' hk'] at hm
      exact absurd hm (by simp)
    | none => exact ⟨_, rfl, rfl, rfl⟩

/-- A configuration holding every required key. -/
def c9cfgFull : List (String × String) :=
  [("mode", "signal"), ("market", "a"), ("base_code", "SH.000001"),
   ("codes", "[SH.000001]"), ("frequencys", "[30m]"),
   ("start_datetime", "2020-01-01"), ("end_datetime", "2021-01-01"),
   ("init_balance", "100000"), ("fee_rate", "0.0006"), ("max_pos", "1"),
   ("cl_config", "{}"), ("is_stock", "True"), ("is_futures", "False"),
   ("strategy", "S")]

/-- Witness for C9: a dict holding only `market` fails on the missing `mode`;
the full dict constructs with trader and data provider present. -/
theorem backtest_init_requires_keys_witness :
    (∃ e, BackTest.init (some [("market", "a")]) = .error e) ∧
    (∃ bt, BackTest.init (some c9cfgFull) = .ok bt ∧
      bt.trader.isSome = true ∧ bt.datas.isSome = true) := by
  refine ⟨(backtest_init_requires_keys [("market", "a")]).1 "mode"
    (by decide) (by decide), (backtest_init_requires_keys c9cfgFull).2 ?_⟩
  decide

/-- C10: `BackTest.__init__` with `config = None` bypasses the required-key
check entirely: it returns normally, with only the logger set and neither a
trader nor a market-data provider. -/
theorem backtest_init_none_skips_validation :
    BackTest.init none = .ok { log := true } ∧
    ∃ bt, BackTest.init none = .ok bt ∧ bt.log = true ∧
      bt.trader = none ∧ bt.datas = none ∧ bt.mode = none :=
  ⟨rfl, _, rfl, rfl, rfl, rfl, rfl⟩

/-- A simulated position for the run-loop model (only identity and closing
state matter to the claim). -/
structure SimPos where
  code : String
  closed : Bool := false
  close_msg : String := ""
deriving DecidableEq

/-- Trader state visible to the run loop: the balance history recorded per
tick and the live / historical positions. -/
structure TraderSt where
  balance_history : List (ℕ × ℚ) := []
  positions : List SimPos := []
  history : List SimPos := []
deriving DecidableEq

/-- Modelled from the spec: `trader.update_position_record` marks open
positions to the tick's price and records the tick's balance entry; the
balance value is an arbitrary function of the tick and the state. -/
def update_position_record (markBalance : ℕ → TraderSt → ℚ) (t : ℕ)
    (s : TraderSt) : TraderSt :=
  { s with balance_history := s.balance_history ++ [(t, markBalance t s)] }

/-- The inner loop of `BackTest.run` over the configured codes: the source
wraps each `self.trader.run(code)` in `try/except`, logging and continuing on
failure. The strategy invocation `strat` (modelled from the spec:
`trader.run` applies strategy instructions to the positions) may fail. -/
def tickCodes (strat : String → ℕ → List SimPos → Except String (List SimPos))
    (t : ℕ) : List String → TraderSt → TraderSt
  | [], s => s
  | c :: cs, s =>
    match strat c t s.positions with
    | .ok ps => tickCodes strat t cs { s with positions := ps }
    | .error _ => tickCodes strat t cs s

/-- The outer loop of `BackTest.run`: per tick, record balances, then run
every code (with per-code exception isolation), until stream exhaustion. -/
def runTicks (markBalance : ℕ → TraderSt → ℚ)
    (strat : String → ℕ → List SimPos → Except String (List SimPos)) :
    List ℕ → List String → TraderSt → TraderSt
  | [], _, s => s
  | t :: ts, codes, s =>
    runTicks markBalance strat ts codes
      (tickCodes strat t codes (update_position_record markBalance t s))

/-- Modelled from the spec: `trader.end` force-closes every remaining open
position, with a close message distinct from strategy closes. -/
def traderEnd (s : TraderSt) : TraderSt :=
  { s with positions := [],
           history := s.history ++ s.positions.map
             (fun p => { p with closed := true, close_msg := "force close" }) }

/-- `BackTest.run`: the tick loop followed by `self.trader.end()`. -/
def btRun (markBalance : ℕ → TraderSt → ℚ)
    (strat : String → ℕ → List SimPos → Except String (List SimPos))
    (ticks : List ℕ) (codes : List String) (s : TraderSt) : TraderSt :=
  traderEnd (runTicks markBalance strat ticks codes s)

lemma tickCodes_balance (strat : String → ℕ → List SimPos → Except String (List SimPos))
    (t : ℕ) : ∀ (cs : List String) (s : TraderSt),
    (tickCodes strat t cs s).balance_history = s.balance_history := by
  intro cs
  induction cs with
  | nil => intro s; rfl
  | cons c cs ih =>
    intro s
    unfold tickCodes
    cases strat c t s.positions with
    | ok ps => exact ih _
    | error e => exact ih _

/-- C8: the tick loop of `run` is exception-isolated and total: a strategy
failure for one code leaves the trader state exactly as it was (in particular
every balance entry already recorded for that tick) and the loop proceeds with
the remaining codes; the run always reaches stream exhaustion, recording one
balance entry per tick; and afterwards every remaining open position is
force-closed. -/
theorem btRun_isolates_failures (markBalance : ℕ → TraderSt → ℚ)
    (strat : String → ℕ → List SimPos → Except String (List SimPos))
    (ticks : List ℕ) (codes : List String) (s0 : TraderSt) :
    (btRun markBalance strat ticks codes s0).positions = [] ∧
    (btRun markBalance strat ticks codes s0).balance_history.map Prod.fst =
      s0.balance_history.map Prod.fst ++ ticks ∧
    (∀ (t : ℕ) (s : TraderSt) (c : String) (cs : List String) (e : String),
      strat c t s.positions = .error e →
      tickCodes strat t (c :: cs) s = tickCodes strat t cs s) := by
  refine ⟨rfl, ?_, ?_⟩
  · show (runTicks markBalance strat ticks codes s0).balance_history.map Prod.fst =
      s0.balance_history.map Prod.fst ++ ticks
    induction ticks generalizing s0 with
    | nil => simp [runTicks]
    | cons t ts ih =>
      unfold runTicks
      rw [ih, tickCodes_balance]
      simp [update_position_record]
  · intro t s c cs e herr
    simp only [tickCodes, herr]

/-- A concrete strategy for the C8 witness: fails on code `"bad"`, keeps the
positions unchanged otherwise. -/
def c8strat (c : String) (_t : ℕ) (ps : List SimPos) :
    Except String (List SimPos) :=
  if c = "bad" then .error "boom" else .ok ps

/-- Witness for C8: with a strategy that always fails on one of two codes, the
failing code is skipped without touching the state, every tick is still
recorded and the final open-position list is empty. -/
theorem btRun_isolates_failures_witness :
    (btRun (fun _ _ => 100) c8strat [0, 1] ["bad", "good"]
      { positions := [{ code := "good" }] }).positions = [] ∧
    (btRun (fun _ _ => 100) c8strat [0, 1] ["bad", "good"]
      { positions := [{ code := "good" }] }).balance_history.map Prod.fst = [0, 1] ∧
    tickCodes c8strat 0 ["bad", "good"] { positions := [{ code := "good" }] } =
      tickCodes c8strat 0 ["good"] { positions := [{ code := "good" }] } := by
  have h := btRun_isolates_failures (fun _ _ => 100) c8strat [0, 1]
    ["bad", "good"] { positions := [{ code := "good" }] }
  exact ⟨h.1, h.2.1, h.2.2 0 { positions := [{ code := "good" }] } "bad" ["good"]
    "boom" rfl⟩

/-- Tail of `talib.MA(xs, 2)`: the trailing two-sample mean, carrying the
previous raw value. -/
def maAux (prev : ℚ) : List ℚ → List (Option ℚ)
  | [] => []
  | y :: ys => some ((prev + y) / 2) :: maAux y ys

/-- `talib.MA(np.array(points), 2)`: NaN (modelled `none`) at index 0, the
mean of the two latest samples afterwards. -/
def jd_ma : List ℚ → List (Option ℚ)
  | [] => []
  | x :: xs => none :: maAux x xs

/-- The `new_points` list of `points_jiaodu`. In the source the filter is
`if points[i] is not None`: the smoothed numpy array holds floats — NaN at
index 0, never Python `None` — so the test holds for every entry and every
`(index, value)` pair is appended. -/
def jd_new_points (pts : List ℚ) : List (ℕ × Option ℚ) := (jd_ma pts).enum

/-- Float `<=` under the NaN model: any comparison with NaN is false. -/
def oLe : Option ℚ → Option ℚ → Bool
  | some a, some b => decide (a ≤ b)
  | _, _ => false

/-- Float `>=` under the NaN model. -/
def oGe : Option ℚ → Option ℚ → Bool
  | some a, some b => decide (b ≤ a)
  | _, _ => false

/-- The extremum test of `points_jiaodu` for the window `(p1, p2, p3?)`:
`position == 'up' and p1[1] <= p2[1] and ((p3 is not None and p2[1] >= p3[1])
or p3 is None)`, and symmetrically for `'down'`. -/
def jd_cond (pos : String) (p1 p2 : ℕ × Option ℚ) (p3 : Option (ℕ × Option ℚ)) :
    Bool :=
  if pos = "up" then
    oLe p1.2 p2.2 && (match p3 with | some q => oGe p2.2 q.2 | none => true)
  else if pos = "down" then
    oGe p1.2 p2.2 && (match p3 with | some q => oLe p2.2 q.2 | none => true)
  else false

/-- The extremum loop `for i in range(1, len(new_points))`: each window keeps
`p2 = new_points[i]` when the test holds; the head of the list is only ever
used as a left neighbour. -/
def fxsAux (pos : String) : List (ℕ × Option ℚ) → List (ℕ × Option ℚ)
  | p1 :: p2 :: rest =>
    (if jd_cond pos p1 p2 rest[0]? then [p2] else []) ++ fxsAux pos (p2 :: rest)
  | _ => []

/-- The extrema `fxs` found by `points_jiaodu`. -/
def jd_fxs (pts : List ℚ) (pos : String) : List (ℕ × Option ℚ) :=
  fxsAux pos (jd_new_points pts)

/-- Numeric reading of a point value. Every extremum that `fxsAux` retains has
a defined (`some`) value — `fxsAux_isSome` below — so the default is never
read on the sort/slope path. -/
def jd_val (o : Option ℚ) : ℚ := o.getD 0

/-- The sort key comparison of `sorted(fxs, key=lambda f: f[1],
reverse=(position == 'up'))`: descending by value for `'up'`, ascending
otherwise. -/
def jdRelB (pos : String) (a b : ℕ × Option ℚ) : Bool :=
  if pos = "up" then decide (jd_val b.2 ≤ jd_val a.2)
  else decide (jd_val a.2 ≤ jd_val b.2)

/-- `jdRelB` as a relation for the sort. -/
def jdRel (pos : String) (a b : ℕ × Option ℚ) : Prop := jdRelB pos a b = true

instance jdRel.instDecidable (pos : String) : DecidableRel (jdRel pos) :=
  fun a b => by unfold jdRel; infer_instance

instance jdRel.instIsTotal (pos : String) :
    IsTotal (ℕ × Option ℚ) (jdRel pos) := by
  refine ⟨fun a b => ?_⟩
  unfold jdRel jdRelB
  split_ifs <;> simp only [decide_eq_true_eq] <;> exact le_total _ _

instance jdRel.instIsTrans (pos : String) :
    IsTrans (ℕ × Option ℚ) (jdRel pos) := by
  refine ⟨fun a b c => ?_⟩
  unfold jdRel jdRelB
  split_ifs <;> simp only [decide_eq_true_eq]
  · exact fun h1 h2 => le_trans h2 h1
  · exact fun h1 h2 => le_trans h1 h2

/-- The sorted extremum list (a stable sort, like Python's `sorted`). -/
def jd_sorted (pts : List ℚ) (pos : String) : List (ℕ × Option ℚ) :=
  List.insertionSort (jdRel pos) (jd_fxs pts pos)

/-- The slope `(p1[1] - p2[1]) / (p1[0] - p2[0])` of the `jiaodu` helper. -/
def jd_slope (p q : ℕ × Option ℚ) : ℚ :=
  (jd_val p.2 - jd_val q.2) / ((p.1 : ℚ) - (q.1 : ℚ))

/-- `Strategy.points_jiaodu`: 0 on empty input; smooth, number, extract
extrema; 0 when fewer than two extrema; otherwise sort and return
`degrees(atan(slope))` of the two most extreme points. -/
noncomputable def points_jiaodu (pts : List ℚ) (pos : String) : ℝ :=
  if pts.length = 0 then 0
  else if (jd_fxs pts pos).length < 2 then 0
  else
    match jd_sorted pts pos with
    | p1 :: p2 :: _ => Real.arctan ((jd_slope p1 p2 : ℚ) : ℝ) * 180 / Real.pi
    | _ => 0

lemma maAux_length (prev : ℚ) : ∀ xs : List ℚ, (maAux prev xs).length = xs.length
  | [] => rfl
  | y :: ys => by simp [maAux, maAux_length y ys]

lemma jd_ma_length : ∀ pts : List ℚ, (jd_ma pts).length = pts.length
  | [] => rfl
  | x :: xs => by simp [jd_ma, maAux_length]

lemma fxsAux_sublist (pos : String) :
    ∀ l : List (ℕ × Option ℚ), (fxsAux pos l).Sublist (l.drop 1) := by
  intro l
  induction l with
  | nil => simp [fxsAux]
  | cons p1 t ih =>
    cases t with
    | nil => simp [fxsAux]
    | cons p2 rest =>
      show ((if jd_cond pos p1 p2 rest[0]? then [p2] else []) ++
        fxsAux pos (p2 :: rest)).Sublist (p2 :: rest)
      have ih' : (fxsAux pos (p2 :: rest)).Sublist rest := ih
      by_cases hc : jd_cond pos p1 p2 rest[0]? = true
      · rw [if_pos hc]
        exact List.Sublist.cons₂ _ ih'
      · rw [if_neg hc]
        exact List.Sublist.cons _ ih'

lemma oLe_isSome₂ : ∀ a b : Option ℚ, oLe a b = true → b.isSome = true := by
  intro a b h
  cases a <;> cases b <;> simp [oLe] at h ⊢

lemma oGe_isSome₂ : ∀ a b : Option ℚ, oGe a b = true → b.isSome = true := by
  intro a b h
  cases a <;> cases b <;> simp [oGe] at h ⊢

lemma jd_cond_isSome {pos : String} {p1 p2 : ℕ × Option ℚ}
    {p3 : Option (ℕ × Option ℚ)} (h : jd_cond pos p1 p2 p3 = true) :
    p2.2.isSome = true := by
  unfold jd_cond at h
  split_ifs at h
  · rw [Bool.and_eq_true] at h
    exact oLe_isSome₂ _ _ h.1
  · rw [Bool.and_eq_true] at h
    exact oGe_isSome₂ _ _ h.1

lemma fxsAux_isSome (pos : String) :
    ∀ (l : List (ℕ × Option ℚ)) (x : ℕ × Option ℚ), x ∈ fxsAux pos l →
      x.2.isSome = true := by
  intro l
  induction l with
  | nil => intro x hx; simp [fxsAux] at hx
  | cons p1 t ih =>
    cases t with
    | nil => intro x hx; simp [fxsAux] at hx
    | cons p2 rest =>
      intro x hx
      have hx' : x ∈ (if jd_cond pos p1 p2 rest[0]? then [p2] else []) ++
          fxsAux pos (p2 :: rest) := hx
      rcases List.mem_append.mp hx' with h1 | h2
      · by_cases hc : jd_cond pos p1 p2 rest[0]? = true
        · rw [if_pos hc] at h1
          rw [List.mem_singleton.mp h1]
          exact jd_cond_isSome hc
        · rw [if_neg hc] at h1
          simp at h1
      · exact ih x h2

lemma mem_fxsAux_iff (pos : String) :
    ∀ (l : List (ℕ × Option ℚ)) (x : ℕ × Option ℚ),
    x ∈ fxsAux pos l ↔
      ∃ i p1, l[i]? = some p1 ∧ l[i + 1]? = some x ∧
        jd_cond pos p1 x l[i + 2]? = true := by
  intro l
  induction l with
  | nil => intro x; simp [fxsAux]
  | cons p1 t ih =>
    cases t with
    | nil =>
      intro x
      simp only [fxsAux, List.not_mem_nil, false_iff, not_exists]
      rintro i q ⟨-, hx, -⟩
      rw [List.getElem?_cons_succ, List.getElem?_nil] at hx
      exact absurd hx (by simp)
    | cons p2 rest =>
      intro x
      constructor
      · intro hx
        have hx' : x ∈ (if jd_cond pos p1 p2 rest[0]? then [p2] else []) ++
            fxsAux pos (p2 :: rest) := hx
        rcases List.mem_append.mp hx' with h1 | h2
        · by_cases hc : jd_cond pos p1 p2 rest[0]? = true
          · rw [if_pos hc] at h1
            rw [List.mem_singleton.mp h1]
            exact ⟨0, p1, by simp, by simp, by simpa using hc⟩
          · rw [if_neg hc] at h1
            simp at h1
        · rcases (ih x).mp h2 with ⟨i, q, hq, hx2, hcnd⟩
          exact ⟨i + 1, q, by simpa using hq, by simpa using hx2,
            by simpa using hcnd⟩
      · rintro ⟨i, q, hq, hx2, hcnd⟩
        cases i with
        | zero =>
          have hq' : p1 = q := by simpa using hq
          have hx3 : p2 = x := by simpa using hx2
          have hc : jd_cond pos p1 p2 rest[0]? = true := by
            rw [hq', hx3]
            simpa using hcnd
          show x ∈ (if jd_cond pos p1 p2 rest[0]? then [p2] else []) ++
            fxsAux pos (p2 :: rest)
          rw [if_pos hc, ← hx3]
          exact List.mem_append_left _ (List.mem_singleton.mpr rfl)
        | succ j =>
          have hmem : x ∈ fxsAux pos (p2 :: rest) :=
            (ih x).mpr ⟨j, q, by simpa using hq, by simpa using hx2,
              by simpa using hcnd⟩
          show x ∈ (if jd_cond pos p1 p2 rest[0]? then [p2] else []) ++
            fxsAux pos (p2 :: rest)
          exact List.mem_append_right _ hmem

lemma jd_fxs_fst_nodup (pts : List ℚ) (pos : String) :
    ((jd_fxs pts pos).map Prod.fst).Nodup := by
  have hsub : (jd_fxs pts pos).Sublist (jd_new_points pts) :=
    (fxsAux_sublist pos _).trans (List.drop_sublist _ _)
  exact List.Nodup.sublist (hsub.map Prod.fst) (List.nodup_enum_map_fst _)

lemma degrees_arctan_sign (x : ℝ) :
    (0 < Real.arctan x * 180 / Real.pi ↔ 0 < x) ∧
    (Real.arctan x * 180 / Real.pi < 0 ↔ x < 0) ∧
    (Real.arctan x * 180 / Real.pi = 0 ↔ x = 0) := by
  have hc : (0:ℝ) < 180 / Real.pi := div_pos (by norm_num) Real.pi_pos
  have harr : Real.arctan x * 180 / Real.pi = Real.arctan x * (180 / Real.pi) := by
    ring
  have hpos : 0 < Real.arctan x ↔ 0 < x := by
    nth_rewrite 1 [show (0:ℝ) = Real.arctan 0 from Real.arctan_zero.symm]
    exact Real.arctan_strictMono.lt_iff_lt
  have hneg : Real.arctan x < 0 ↔ x < 0 := by
    nth_rewrite 1 [show (0:ℝ) = Real.arctan 0 from Real.arctan_zero.symm]
    exact Real.arctan_strictMono.lt_iff_lt
  refine ⟨?_, ?_, ?_⟩
  · rw [harr]
    constructor
    · intro h
      rcases mul_pos_iff.mp h with ⟨h1, -⟩ | ⟨-, h2⟩
      · exact hpos.mp h1
      · exact absurd h2 (not_lt.mpr hc.le)
    · intro h
      exact mul_pos (hpos.mpr h) hc
  · rw [harr]
    constructor
    · intro h
      rcases mul_neg_iff.mp h with ⟨-, h2⟩ | ⟨h1, -⟩
      · exact absurd h2 (not_lt.mpr hc.le)
      · exact hneg.mp h1
    · intro h
      exact mul_neg_of_neg_of_pos (hneg.mpr h) hc
  · rw [harr]
    constructor
    · intro h
      rcases mul_eq_zero.mp h with h1 | h2
      · exact Real.arctan_eq_zero_iff.mp h1
      · exact absurd h2 (ne_of_gt hc)
    · intro h
      rw [h, Real.arctan_zero, zero_mul]

/-- C5: `points_jiaodu` returns 0 whenever it finds fewer than two extrema
(in particular on empty input); otherwise, with the extrema sorted by value
(descending for `'up'`, ascending otherwise), it returns
`degrees(atan((v1 - v2) / (i1 - i2)))` of the two most extreme points, whose
indices are distinct and whose values are defined, and the sign of the
returned angle is the sign of that slope — it matches the chronological order
of the two most extreme points. -/
theorem points_jiaodu_spec (pts : List ℚ) (pos : String) :
    ((jd_fxs pts pos).length < 2 → points_jiaodu pts pos = 0) ∧
    (∀ i1 v1 i2 v2 t, jd_sorted pts pos = (i1, v1) :: (i2, v2) :: t →
      points_jiaodu pts pos =
        Real.arctan ((jd_slope (i1, v1) (i2, v2) : ℚ) : ℝ) * 180 / Real.pi ∧
      i1 ≠ i2 ∧ v1.isSome = true ∧ v2.isSome = true ∧
      (pos = "up" → jd_val v2 ≤ jd_val v1) ∧
      (pos ≠ "up" → jd_val v1 ≤ jd_val v2) ∧
      (0 < points_jiaodu pts pos ↔ 0 < jd_slope (i1, v1) (i2, v2)) ∧
      (points_jiaodu pts pos < 0 ↔ jd_slope (i1, v1) (i2, v2) < 0) ∧
      (points_jiaodu pts pos = 0 ↔ jd_slope (i1, v1) (i2, v2) = 0)) := by
  constructor
  · intro h
    unfold points_jiaodu
    by_cases h0 : pts.length = 0
    · rw [if_pos h0]
    · rw [if_neg h0, if_pos h]
  · intro i1 v1 i2 v2 t hs
    have hperm : (jd_sorted pts pos).Perm (jd_fxs pts pos) :=
      List.perm_insertionSort _ _
    have hlen2 : ¬ (jd_fxs pts pos).length < 2 := by
      have h1 := hperm.length_eq
      rw [hs] at h1
      simp at h1
      omega
    have hpts : ¬ pts.length = 0 := by
      intro h0
      have hnil : pts = [] := List.length_eq_zero.mp h0
      subst hnil
      simp [jd_sorted, jd_fxs, jd_new_points, jd_ma, fxsAux,
        List.insertionSort] at hs
    have hpj : points_jiaodu pts pos =
        Real.arctan ((jd_slope (i1, v1) (i2, v2) : ℚ) : ℝ) * 180 / Real.pi := by
      unfold points_jiaodu
      rw [if_neg hpts, if_neg hlen2, hs]
    have hm1 : (i1, v1) ∈ jd_fxs pts pos := hperm.subset (by rw [hs]; simp)
    have hm2 : (i2, v2) ∈ jd_fxs pts pos := hperm.subset (by rw [hs]; simp)
    have hv1 : v1.isSome = true := fxsAux_isSome pos _ _ hm1
    have hv2 : v2.isSome = true := fxsAux_isSome pos _ _ hm2
    have hnd : ((jd_sorted pts pos).map Prod.fst).Nodup :=
      ((hperm.map Prod.fst).nodup_iff).mpr (jd_fxs_fst_nodup pts pos)
    have hne : i1 ≠ i2 := by
      rw [hs] at hnd
      rcases List.nodup_cons.mp hnd with ⟨hnotin, -⟩
      exact fun heq => hnotin (heq ▸ List.mem_cons_self _ _)
    have hsorted : List.Sorted (jdRel pos) (jd_sorted pts pos) :=
      List.sorted_insertionSort _ _
    have hrel : jdRel pos (i1, v1) (i2, v2) := by
      rw [hs] at hsorted
      exact (List.sorted_cons.mp hsorted).1 _ (List.mem_cons_self _ _)
    have hup : pos = "up" → jd_val v2 ≤ jd_val v1 := by
      intro hposu
      have hb : jdRelB pos (i1, v1) (i2, v2) = true := hrel
      unfold jdRelB at hb
      rw [if_pos hposu] at hb
      exact of_decide_eq_true hb
    have hdown : pos ≠ "up" → jd_val v1 ≤ jd_val v2 := by
      intro hposu
      have hb : jdRelB pos (i1, v1) (i2, v2) = true := hrel
      unfold jdRelB at hb
      rw [if_neg hposu] at hb
      exact of_decide_eq_true hb
    refine ⟨hpj, hne, hv1, hv2, hup, hdown, ?_, ?_, ?_⟩
    · rw [hpj, (degrees_arctan_sign _).1]
      exact Rat.cast_pos
    · rw [hpj, (degrees_arctan_sign _).2.1]
      exact Rat.cast_lt_zero
    · rw [hpj, (degrees_arctan_sign _).2.2]
      exact Rat.cast_eq_zero

/-- Witness for C5: on [0, 10, 0, 6, 0] with kind 'up' the two extrema found
are (2, 5) and (4, 3) — the higher peak comes chronologically first — and the
returned angle is negative, as the theorem's sign characterisation demands. -/
theorem points_jiaodu_spec_witness :
    points_jiaodu [0, 10, 0, 6, 0] "up" < 0 := by
  have h := (points_jiaodu_spec [0, 10, 0, 6, 0] "up").2 2 (some 5) 4 (some 3) []
    (by norm_num [jd_sorted, jd_fxs, jd_new_points, jd_ma, maAux, fxsAux,
      jd_cond, oLe, oGe, List.enum, List.enumFrom, List.insertionSort,
      List.orderedInsert, jdRel, jdRelB, jd_val])
  exact h.2.2.2.2.2.2.2.1.mpr (by norm_num [jd_slope, jd_val])

/-- C6 counterexample: at input [1, 2, 3] the smoothed value at index 0 is
undefined (NaN), yet the pair (0, NaN) is retained — `points[i] is not None`
never discards a NaN — refuting "only defined pairs are retained"; and at
[20, 10, 0, 10, 0] the first defined point (1, 15) dominates its single right
neighbour (value 5), so by the claim's boundary rule it is a peak extremum,
yet it is not collected. -/
theorem points_jiaodu_extrema_cex :
    (0, (none : Option ℚ)) ∈ jd_new_points [1, 2, 3] ∧
    (1, (some (15 : ℚ))) ∉ jd_fxs [20, 10, 0, 10, 0] "up" ∧
    oGe (some (15 : ℚ)) (some (5 : ℚ)) = true := by
  refine ⟨?_, ?_, by norm_num [oGe]⟩
  · norm_num [jd_new_points, jd_ma, maAux, List.enum, List.enumFrom]
  · norm_num [jd_fxs, jd_new_points, jd_ma, maAux, fxsAux, jd_cond, oLe, oGe,
      List.enum, List.enumFrom]

/-- C6 (amended): after MA(2) smoothing nothing is discarded (the source's
`is not None` filter also keeps the undefined NaN entry at index 0); a point
is an extremum exactly when it is the middle of a consecutive window of the
numbered sequence passing the three-point comparison (comparisons against the
undefined value fail, and a missing right neighbour — the last point — is
accepted); the first point of the sequence is never an extremum. -/
theorem points_jiaodu_extrema_spec (pts : List ℚ) (pos : String) :
    (jd_new_points pts).length = pts.length ∧
    (∀ v, (0, v) ∉ jd_fxs pts pos) ∧
    (∀ x, x ∈ jd_fxs pts pos ↔
      ∃ i p1, (jd_new_points pts)[i]? = some p1 ∧
        (jd_new_points pts)[i + 1]? = some x ∧
        jd_cond pos p1 x ((jd_new_points pts)[i + 2]?) = true) := by
  refine ⟨?_, ?_, fun x => mem_fxsAux_iff pos _ x⟩
  · unfold jd_new_points
    rw [List.enum_length, jd_ma_length]
  · intro v hv
    rcases (mem_fxsAux_iff pos _ _).mp hv with ⟨i, q, -, hx, -⟩
    simp [jd_new_points, List.enum, List.getElem?_enumFrom] at hx

/-- Witness for C6 (amended): on [20, 10, 0, 10, 0] with kind 'up', no entry
is discarded (5 pairs retained) and the point (3, 5) is an extremum through
the interior three-point window ((2, 5), (3, 5), (4, 5)). -/
theorem points_jiaodu_extrema_spec_witness :
    (jd_new_points [20, 10, 0, 10, 0]).length = 5 ∧
    (3, (some (5 : ℚ))) ∈ jd_fxs [20, 10, 0, 10, 0] "up" := by
  have h := points_jiaodu_extrema_spec [20, 10, 0, 10, 0] "up"
  refine ⟨h.1.trans (by norm_num),
    (h.2.2 (3, some 5)).mpr ⟨2, (2, some 5), ?_, ?_, ?_⟩⟩
  · norm_num [jd_new_points, jd_ma, maAux, List.enum, List.enumFrom]
  · norm_num [jd_new_points, jd_ma, maAux, List.enum, List.enumFrom]
  · norm_num [jd_cond, oLe, oGe, jd_new_points, jd_ma, maAux, List.enum,
      List.enumFrom]
